import Mathlib

/-
  A shallow embedding of src/search.c, an SPMD (MPI) substring-search program.

  Modelling conventions:

  * Bytes are modelled as natural numbers (`Byte := Nat`).
  * Rank 0 reads the whole file into `file_buffer` (length `file_size`) and
    passes `file_size - 1` to the partitioner (search.c line 183), so the
    partitioned/searched region is the file without its final byte.  Theorems
    are therefore stated over a corpus `C` and a final file byte `s`, with
    `file_buffer = C ++ [s]`: `C` is the corpus in the sense of the
    specification (the region the size check and the partitioning refer to).
  * All the C integer quantities involved stay far from overflow for feasible
    inputs and are non-negative at every program point we model (noted where
    this needs an argument), so `Nat` arithmetic is used.
  * `MPI_Scatterv` hands worker `i` the `distribute[i]` bytes of `file_buffer`
    starting at `displs[i]`.  When `displs[i] + distribute[i]` exceeds the
    length of `file_buffer` the C program reads past its heap buffer
    (undefined behaviour); the model makes such reads total by returning
    byte 0 (`List.getD _ _ 0`).  Every positive theorem below either rules
    that regime out by hypothesis or is insensitive to the value returned.
-/

abbrev Byte := Nat

/-- Model of `distribute_file` (search.c lines 65-78): worker `i` receives the
base share `file_size / p`, one extra byte while the remainder `r = file_size % p`
is still positive (the loop decrements `r` once per worker, so exactly the
workers `i < file_size % p` get the extra byte), and every worker except the
last additionally receives `pattern_size - 1` trailing overlap bytes. -/
def distF (file_size pattern_size p i : Nat) : Nat :=
  file_size / p + (if i < file_size % p then 1 else 0) +
    (if i < p - 1 then pattern_size - 1 else 0)

/-- The `distribute[]` array filled by `distribute_file` for ranks `0 .. p-1`. -/
def distribute_file (file_size pattern_size p : Nat) : List Nat :=
  (List.range p).map (distF file_size pattern_size p)

/-- Model of `displacment` (search.c lines 48-53): `displs[0] = 0` and
`displs[i] = displs[i-1] + distribute[i-1] - (pattern_size - 1)`.
For every index the program uses (`i - 1 < p - 1`) the entry
`distribute[i-1]` contains the `pattern_size - 1` overlap bytes, so the C
`int` value is non-negative and the `Nat` subtraction below is exact. -/
def displacment (distribute : List Nat) (pattern_size : Nat) : Nat → Nat
  | 0 => 0
  | i + 1 => displacment distribute pattern_size i + distribute.getD i 0 - (pattern_size - 1)

/-- The inner loop of `find_string` (search.c lines 97-102): position `i`
matches when all `pattern_size` bytes of the pattern agree with the file
bytes starting at `i` (the C loop exits early at the first mismatch, which
computes the same boolean). -/
def matchAt (file pattern : List Byte) (pattern_size i : Nat) : Bool :=
  (List.range pattern_size).all (fun j => file.getD (i + j) 0 == pattern.getD j 0)

/-- Model of `find_string` (search.c lines 93-106): scan candidate start
positions `0 .. file_size - pattern_size` (both sizes are C `int`s, so a
segment smaller than the pattern gives a negative bound and zero iterations,
which the truncated `Nat` count `file_size + 1 - pattern_size` reproduces) and
record `i + displacement` for each position that matches, in scan order. -/
def find_string (file pattern : List Byte) (file_size pattern_size displacement : Nat) :
    List Nat :=
  ((List.range (file_size + 1 - pattern_size)).filter
      (matchAt file pattern pattern_size)).map (· + displacement)

/-- The segment `MPI_Scatterv` delivers to one worker: `distribute` bytes of
`file_buffer` starting at `displs` (search.c line 210).  Bytes the C program
would read past the end of `file_buffer` are absent from the list; reads of
them are modelled as byte 0 by `List.getD` in `matchAt`. -/
def local_buffer (file_buffer : List Byte) (displs distribute : Nat) : List Byte :=
  (file_buffer.drop displs).take distribute

/-- The local match list (`found[]`, with its length as `count`) produced by
worker `id` in `main` (search.c lines 209-218): `find_string` applied to the
scattered segment, with `local_count = distribute[id]` as the segment size and
`displs[id]` as the displacement added to every local match position. -/
def worker_found (file_buffer pattern : List Byte) (p id : Nat) : List Nat :=
  let dist := distribute_file (file_buffer.length - 1) pattern.length p
  let d := displacment dist pattern.length
  find_string (local_buffer file_buffer (d id) (dist.getD id 0)) pattern
    (dist.getD id 0) pattern.length (d id)

/-- The gathered global match buffer (`all_indexes`, search.c lines 236-252):
`MPI_Gatherv` with counts `recv_counts[i] = |found_i|` and displacements
`displs_for_gather[i] = displs_for_gather[i-1] + recv_counts[i-1]` places the
workers' lists back to back in rank order, i.e. concatenates them. -/
def GlobalResult (file_buffer pattern : List Byte) (p : Nat) : List Nat :=
  ((List.range p).map (worker_found file_buffer pattern p)).flatten

/-- The per-rank match counts gathered by `MPI_Gather` (search.c line 225). -/
def recv_counts (file_buffer pattern : List Byte) (p : Nat) : List Nat :=
  (List.range p).map (fun i => (worker_found file_buffer pattern p i).length)

/-- Model of `print_index` (search.c lines 116-124): walk the count table,
printing `arr[offset + j]` for `j < recv_counts[i]` and advancing `offset` by
`recv_counts[i]` after each rank.  The returned list is the sequence of
numbers written to standard output. -/
def print_index (arr : List Nat) : List Nat → Nat → List Nat
  | [], _ => []
  | c :: rest, offset =>
      ((List.range c).map (fun j => arr.getD (offset + j) 0)) ++
        print_index arr rest (offset + c)

/-- The sequence of match offsets the coordinator prints (search.c line 256). -/
def output (file_buffer pattern : List Byte) (p : Nat) : List Nat :=
  print_index (GlobalResult file_buffer pattern p) (recv_counts file_buffer pattern p) 0

/-- The size check in `main` (search.c lines 163-166): the run is aborted with
the message "pattern is larger than file" exactly when
`file_size - 1 < pattern_size`.  `file_size` is a signed `intmax_t` (the
`lseek` result), so the subtraction is exact integer arithmetic for every
non-empty file. -/
def size_error (file_size : Int) (pattern_size : Nat) : Bool :=
  decide (file_size - 1 < (pattern_size : Int))

/-- The reference searcher the specification compares against: every position
of the corpus at which the pattern occurs, in ascending order. -/
def corpusMatches (corpus pattern : List Byte) : List Nat :=
  (List.range (corpus.length + 1 - pattern.length)).filter
    (matchAt corpus pattern pattern.length)

/-- The collective operations `main` executes, in program order
(search.c lines 187, 188, 206, 207, 210, 221, 225, 252). -/
inductive Collective where
  | bcast_distribute
  | bcast_displs
  | bcast_pattern_size
  | bcast_pattern
  | scatter_corpus
  | barrier
  | gather_counts
  | gather_data
deriving DecidableEq

/-- The sequence of collective calls a rank issues in `main`.  None of the
collective call sites sits under a rank-dependent branch (the `if (ROOT == id)`
blocks contain only local work), so the trace is the same list for every
rank; taking the rank as an argument records exactly that. -/
def main_collectives (_id : Nat) : List Collective :=
  [Collective.bcast_distribute, Collective.bcast_displs,
   Collective.bcast_pattern_size, Collective.bcast_pattern,
   Collective.scatter_corpus, Collective.barrier,
   Collective.gather_counts, Collective.gather_data]

/-- Value delivered by `MPI_Bcast`: every rank receives the root's value. -/
def bcast {α : Type} (root_value : α) (_id : Nat) : α := root_value

/-- The partition table a rank holds after the two metadata broadcasts
(search.c lines 187-188): the root's `distribute` array. -/
def worker_distribute_table (file_buffer pattern : List Byte) (p id : Nat) : List Nat :=
  bcast (distribute_file (file_buffer.length - 1) pattern.length p) id

/-- The pattern bytes a rank holds after the pattern broadcast
(search.c line 207): the root's pattern. -/
def worker_pattern (pattern : List Byte) (id : Nat) : List Byte :=
  bcast pattern id

/- ### Basic list-indexing lemmas -/

theorem getD_drop (l : List Byte) (a j : Nat) : (l.drop a).getD j 0 = l.getD (a + j) 0 := by
  simp [List.getD_eq_getElem?_getD, List.getElem?_drop]

theorem getD_take (l : List Byte) (b j : Nat) (h : j < b) :
    (l.take b).getD j 0 = l.getD j 0 := by
  simp [List.getD_eq_getElem?_getD, List.getElem?_take, h]

theorem all_congr_mem {l : List Nat} {f g : Nat → Bool} (h : ∀ x ∈ l, f x = g x) :
    l.all f = l.all g := by
  induction l with
  | nil => rfl
  | cons a t ih =>
    have ha : f a = g a := h a (List.mem_cons_self a t)
    have ht : t.all f = t.all g := ih (fun x hx => h x (List.mem_cons_of_mem a hx))
    simp only [List.all_cons, ha, ht]

theorem getD_range_map (f : Nat → Nat) (p i : Nat) (h : i < p) :
    ((List.range p).map f).getD i 0 = f i := by
  simp [List.getD_eq_getElem?_getD, List.getElem?_map, List.getElem?_range h]

theorem distribute_file_getD (L m p i : Nat) (h : i < p) :
    (distribute_file L m p).getD i 0 = distF L m p i :=
  getD_range_map _ _ _ h

/- ### Closed forms for the partition table -/

theorem displacment_eq (L m p : Nat) :
    ∀ i, i < p →
      displacment (distribute_file L m p) m i = i * (L / p) + min i (L % p) := by
  intro i
  induction i with
  | zero => intro _; simp [displacment]
  | succ k ih =>
    intro hk
    have hkp : k < p := by omega
    have hkp1 : k < p - 1 := by omega
    rw [displacment, distribute_file_getD L m p k hkp, ih hkp, distF, if_pos hkp1,
      Nat.succ_mul]
    rcases Nat.lt_or_ge k (L % p) with h1 | h1
    · rw [if_pos h1, Nat.min_eq_left (Nat.le_of_lt h1), Nat.min_eq_left h1]
      generalize L / p = n
      omega
    · rw [if_neg (by omega), Nat.min_eq_right h1, Nat.min_eq_right (by omega)]
      generalize L / p = n
      generalize L % p = r
      omega

theorem displacment_mono (L m p : Nat) {i j : Nat} (hij : i <= j) (hj : j < p) :
    displacment (distribute_file L m p) m i <= displacment (distribute_file L m p) m j := by
  rw [displacment_eq L m p i (lt_of_le_of_lt hij hj), displacment_eq L m p j hj]
  have h1 : i * (L / p) <= j * (L / p) := Nat.mul_le_mul_right _ hij
  rcases Nat.le_total i (L % p) with h2 | h2
  · rw [Nat.min_eq_left h2]
    rcases Nat.le_total j (L % p) with h3 | h3
    · rw [Nat.min_eq_left h3]; omega
    · rw [Nat.min_eq_right h3]; omega
  · rw [Nat.min_eq_right h2]
    rcases Nat.le_total j (L % p) with h3 | h3
    · rw [Nat.min_eq_left h3]; omega
    · rw [Nat.min_eq_right h3]; omega

theorem displacment_succ (L m p i : Nat) (hm : 1 <= m) (h : i + 1 < p) :
    displacment (distribute_file L m p) m (i + 1)
      = displacment (distribute_file L m p) m i + (distF L m p i + 1 - m) := by
  have h1 : i < p - 1 := by omega
  rw [displacment, distribute_file_getD L m p i (by omega), distF, if_pos h1]
  split_ifs with h2 <;> generalize L / p = n <;> omega

theorem displacment_last (L m p : Nat) (hp : 0 < p) :
    displacment (distribute_file L m p) m (p - 1) + distF L m p (p - 1) = L := by
  obtain ⟨q, rfl⟩ : ∃ q, p = q + 1 := ⟨p - 1, by omega⟩
  have hq : q + 1 - 1 = q := by omega
  have hr : L % (q + 1) < q + 1 := Nat.mod_lt _ (by omega)
  rw [hq, displacment_eq L m (q + 1) q (by omega), distF, hq,
    if_neg (Nat.lt_irrefl q), if_neg (show ¬ q < L % (q + 1) by omega),
    Nat.min_eq_right (show L % (q + 1) <= q by omega)]
  have hdm := Nat.div_add_mod L (q + 1)
  have hmul : (q + 1) * (L / (q + 1)) = q * (L / (q + 1)) + L / (q + 1) := by ring
  generalize hN : L / (q + 1) = n at hdm hmul ⊢
  generalize hR : L % (q + 1) = r at hdm ⊢
  omega

/- ### Characterizing one worker's match list -/

theorem matchAt_shift (file P : List Byte) (m d D loc : Nat) (hloc : loc + m <= D) :
    matchAt (local_buffer file d D) P m loc = matchAt file P m (d + loc) := by
  unfold matchAt local_buffer
  apply all_congr_mem
  intro j hj
  have hj' : j < m := List.mem_range.mp hj
  have h1 : loc + j < D := by omega
  rw [getD_take _ _ _ h1, getD_drop, show d + (loc + j) = d + loc + j from by omega]

theorem worker_found_eq (file P : List Byte) (p i : Nat) (hi : i < p) :
    worker_found file P p i
      = (List.range'
          (displacment (distribute_file (file.length - 1) P.length p) P.length i)
          (distF (file.length - 1) P.length p i + 1 - P.length)).filter
          (matchAt file P P.length) := by
  simp only [worker_found, find_string]
  rw [distribute_file_getD _ _ _ i hi]
  set L := file.length - 1
  set m := P.length
  set d := displacment (distribute_file L m p) m i with hd
  set D := distF L m p i with hD
  rw [List.filter_congr (fun loc hloc => matchAt_shift file P m d D loc (by
      have := List.mem_range.mp hloc
      omega))]
  rw [List.range'_eq_map_range, List.filter_map]
  rw [show ((matchAt file P m) ∘ fun x => d + x) = (fun loc => matchAt file P m (d + loc))
    from rfl]
  exact List.map_congr_left (fun a _ => Nat.add_comm a d)

/- ### Flatten decompositions -/

theorem filter_flatten_eq (q : Nat → Bool) :
    ∀ K : List (List Nat), (K.flatten).filter q = (K.map (List.filter q)).flatten := by
  intro K
  induction K with
  | nil => rfl
  | cons w rest ih => simp [List.filter_append, ih]

theorem flatten_map_range' (d len : Nat → Nat) :
    ∀ p, 0 < p → d 0 = 0 → (∀ i, i + 1 < p → d (i + 1) = d i + len i) →
      ((List.range p).map (fun i => List.range' (d i) (len i))).flatten
        = List.range' 0 (d (p - 1) + len (p - 1)) := by
  intro p
  induction p with
  | zero => intro h _ _; exact absurd h (Nat.lt_irrefl 0)
  | succ q ih =>
    intro _ h0 hstep
    rcases Nat.eq_zero_or_pos q with rfl | hq
    · rw [show List.range 1 = [0] from rfl]
      simp [h0]
    · rw [List.range_succ, List.map_append, List.flatten_append,
        ih hq h0 (fun i hi => hstep i (by omega))]
      have hdq : d (q - 1) + len (q - 1) = d q := by
        have h := hstep (q - 1) (by omega)
        rw [show q - 1 + 1 = q from by omega] at h
        omega
      have hq1 : q + 1 - 1 = q := by omega
      rw [hdq, hq1]
      have happ := List.range'_append 0 (d q) (len q) 1
      simp only [Nat.zero_add, Nat.one_mul] at happ
      simp only [List.map_cons, List.map_nil, List.flatten_cons, List.flatten_nil,
        List.append_nil]
      rw [happ, Nat.add_comm (len q) (d q)]

/- ### The gathered result equals the sequential scan -/

theorem matchAt_append_sentinel (C : List Byte) (s : Byte) (P : List Byte) (m o : Nat)
    (h : o + m <= C.length) : matchAt (C ++ [s]) P m o = matchAt C P m o := by
  unfold matchAt
  apply all_congr_mem
  intro j hj
  have hj' : j < m := List.mem_range.mp hj
  rw [List.getD_append _ _ _ _ (show o + j < C.length by omega)]

theorem globalResult_eq_corpusMatches (C : List Byte) (s : Byte) (P : List Byte) (p : Nat)
    (hp : 0 < p) (hm : 0 < P.length) (hmc : P.length <= C.length)
    (hover : P.length <= C.length / p + 1) :
    GlobalResult (C ++ [s]) P p = corpusMatches C P := by
  have hL : (C ++ [s]).length - 1 = C.length := by simp
  unfold GlobalResult
  have hmap : (List.range p).map (worker_found (C ++ [s]) P p)
      = (List.range p).map (fun i =>
          (List.range'
            (displacment (distribute_file C.length P.length p) P.length i)
            (distF C.length P.length p i + 1 - P.length)).filter
            (matchAt (C ++ [s]) P P.length)) := by
    refine List.map_congr_left (fun i hi => ?_)
    rw [worker_found_eq (C ++ [s]) P p i (List.mem_range.mp hi), hL]
  rw [hmap]
  have hflat : ((List.range p).map (fun i =>
        (List.range'
          (displacment (distribute_file C.length P.length p) P.length i)
          (distF C.length P.length p i + 1 - P.length)).filter
          (matchAt (C ++ [s]) P P.length))).flatten
      = (((List.range p).map (fun i =>
          List.range'
            (displacment (distribute_file C.length P.length p) P.length i)
            (distF C.length P.length p i + 1 - P.length))).flatten).filter
          (matchAt (C ++ [s]) P P.length) := by
    rw [filter_flatten_eq, List.map_map]
    rfl
  rw [hflat]
  rw [flatten_map_range' _ _ p hp rfl
    (fun i hi => displacment_succ C.length P.length p i hm hi)]
  have hlast := displacment_last C.length P.length p hp
  have hge : C.length / p <= distF C.length P.length p (p - 1) := by
    unfold distF
    split_ifs <;> omega
  have htop : displacment (distribute_file C.length P.length p) P.length (p - 1)
        + (distF C.length P.length p (p - 1) + 1 - P.length)
      = C.length + 1 - P.length := by
    generalize hn : C.length / p = n at hover hge
    omega
  rw [htop,
    show List.range' 0 (C.length + 1 - P.length) = List.range (C.length + 1 - P.length)
      from (List.range_eq_range' _).symm]
  unfold corpusMatches
  refine List.filter_congr (fun o ho => ?_)
  have ho' : o < C.length + 1 - P.length := List.mem_range.mp ho
  exact matchAt_append_sentinel C s P P.length o (by omega)

/- ### Match predicate versus slice equality -/

theorem eq_iff_getD {l t : List Nat} (hlen : l.length = t.length) :
    l = t ↔ ∀ j, j < l.length → l.getD j 0 = t.getD j 0 := by
  constructor
  · rintro rfl
    exact fun j _ => rfl
  · intro h
    refine List.ext_getElem hlen (fun n h1 h2 => ?_)
    have hD := h n h1
    rw [List.getD_eq_getElem?_getD, List.getD_eq_getElem?_getD,
      List.getElem?_eq_getElem h1, List.getElem?_eq_getElem h2] at hD
    simpa using hD

theorem matchAt_iff_slice (C P : List Byte) (o : Nat) (ho : o + P.length <= C.length) :
    matchAt C P P.length o = true ↔ (C.drop o).take P.length = P := by
  have hmin : P.length ⊓ (C.length - o) = P.length := Nat.min_eq_left (by omega)
  have hlen : ((C.drop o).take P.length).length = P.length := by
    simp [List.length_take, List.length_drop, hmin]
  rw [eq_iff_getD hlen, hlen]
  unfold matchAt
  rw [List.all_eq_true]
  constructor
  · intro h j hj
    have hb := h j (List.mem_range.mpr hj)
    rw [beq_iff_eq] at hb
    rw [getD_take _ _ _ hj, getD_drop]
    exact hb
  · intro h j hj
    have hj' : j < P.length := List.mem_range.mp hj
    rw [beq_iff_eq]
    have hb := h j hj'
    rwa [getD_take _ _ _ hj', getD_drop] at hb

/- ### Each worker's list is strictly ascending -/

theorem find_string_pairwise (file P : List Byte) (fs ps dsp : Nat) :
    List.Pairwise (· < ·) (find_string file P fs ps dsp) := by
  unfold find_string
  exact List.Pairwise.map _ (fun a b h => Nat.add_lt_add_right h dsp)
    (List.Pairwise.sublist (List.filter_sublist _) (List.pairwise_lt_range _))

/- ### Counting a true occurrence in the gathered result -/

theorem globalResult_windows (C : List Byte) (s : Byte) (P : List Byte) (p : Nat) :
    GlobalResult (C ++ [s]) P p
      = ((List.range p).map (fun i =>
          (List.range'
            (displacment (distribute_file C.length P.length p) P.length i)
            (distF C.length P.length p i + 1 - P.length)).filter
            (matchAt (C ++ [s]) P P.length))).flatten := by
  have hL : (C ++ [s]).length - 1 = C.length := by simp
  unfold GlobalResult
  refine congrArg List.flatten (List.map_congr_left (fun i hi => ?_))
  rw [worker_found_eq (C ++ [s]) P p i (List.mem_range.mp hi), hL]

theorem count_filter_range' (o : Nat) (q : Nat → Bool) (hq : q o = true) (a n : Nat) :
    List.count o ((List.range' a n).filter q) = if a <= o ∧ o < a + n then 1 else 0 := by
  rw [List.count_filter hq]
  by_cases hmem : o ∈ List.range' a n
  · rw [List.count_eq_one_of_mem (List.nodup_range' _ _) hmem,
      if_pos (List.mem_range'_1.mp hmem)]
  · rw [List.count_eq_zero.mpr hmem, if_neg (fun hc => hmem (List.mem_range'_1.mpr hc))]

theorem sum_map_zero (l : List Nat) : (l.map (fun _ => (0 : Nat))).sum = 0 := by
  induction l with
  | nil => rfl
  | cons a t ih => simp [ih]

theorem sum_ite_eq_one (T : Nat → Prop) [DecidablePred T] :
    ∀ (p i0 : Nat), i0 < p → (∀ i, i < p → (T i ↔ i = i0)) →
      ((List.range p).map (fun i => if T i then 1 else 0)).sum = 1 := by
  intro p
  induction p with
  | zero => intro i0 h _; exact absurd h (Nat.not_lt_zero i0)
  | succ n ih =>
    intro i0 h0 hiff
    rw [List.range_succ, List.map_append, List.sum_append]
    by_cases he : i0 = n
    · have hz : ∀ i ∈ List.range n, (if T i then 1 else 0) = (fun _ => (0 : Nat)) i := by
        intro i hi
        have hi' : i < n := List.mem_range.mp hi
        refine if_neg (fun hT => ?_)
        have h2 := (hiff i (by omega)).mp hT
        omega
      rw [List.map_congr_left hz, sum_map_zero]
      have hT : T n := (hiff n (by omega)).mpr he.symm
      simp [hT]
    · have hi0 : i0 < n := by omega
      rw [ih i0 hi0 (fun i hi => hiff i (by omega))]
      have hTn : ¬ T n := fun hT => he (((hiff n (by omega)).mp hT).symm)
      simp [hTn]

theorem globalResult_count (C : List Byte) (s : Byte) (P : List Byte) (p o : Nat)
    (hp : 0 < p) (hm : 0 < P.length) (ho : o + P.length <= C.length)
    (hocc : matchAt C P P.length o = true) :
    (GlobalResult (C ++ [s]) P p).count o = 1 := by
  classical
  have hq : matchAt (C ++ [s]) P P.length o = true := by
    rw [matchAt_append_sentinel C s P P.length o ho]
    exact hocc
  rw [globalResult_windows, List.count_flatten, List.map_map]
  have hcongr : (List.range p).map
        ((List.count o) ∘ fun i =>
          (List.range'
            (displacment (distribute_file C.length P.length p) P.length i)
            (distF C.length P.length p i + 1 - P.length)).filter
            (matchAt (C ++ [s]) P P.length))
      = (List.range p).map (fun i =>
          if displacment (distribute_file C.length P.length p) P.length i <= o
              ∧ o < displacment (distribute_file C.length P.length p) P.length i
                  + (distF C.length P.length p i + 1 - P.length)
          then 1 else 0) := by
    refine List.map_congr_left (fun i _ => ?_)
    simp only [Function.comp_def]
    exact count_filter_range' o _ hq _ _
  rw [hcongr]
  set i0 := Nat.findGreatest
      (fun i => displacment (distribute_file C.length P.length p) P.length i <= o) (p - 1)
      with hi0def
  have hA : displacment (distribute_file C.length P.length p) P.length i0 <= o :=
    @Nat.findGreatest_spec 0
      (fun i => displacment (distribute_file C.length P.length p) P.length i <= o) _
      (p - 1) (Nat.zero_le _) (by simp [displacment])
  have hB : i0 <= p - 1 := Nat.findGreatest_le (p - 1)
  have hG : ∀ k, i0 < k → k <= p - 1 →
      ¬ displacment (distribute_file C.length P.length p) P.length k <= o :=
    fun k h1 h2 => @Nat.findGreatest_is_greatest k
      (fun i => displacment (distribute_file C.length P.length p) P.length i <= o) _
      (p - 1) h1 h2
  have hlast := displacment_last C.length P.length p hp
  refine sum_ite_eq_one _ p i0 (by omega) ?_
  intro i hi
  constructor
  · rintro ⟨h1, h2⟩
    by_contra hne
    rcases Nat.lt_or_ge i i0 with hlt | hge
    · have hs := displacment_succ C.length P.length p i hm (by omega)
      have hm2 := displacment_mono C.length P.length p
        (show i + 1 <= i0 by omega) (show i0 < p by omega)
      omega
    · exact hG i (by omega) (by omega) h1
  · rintro rfl
    refine ⟨hA, ?_⟩
    rcases Nat.lt_or_ge i0 (p - 1) with hlt | hge2
    · have hnk := hG (i0 + 1) (by omega) (by omega)
      have hs := displacment_succ C.length P.length p i0 hm (by omega)
      omega
    · have hio : i0 = p - 1 := by omega
      rw [hio] at hA ⊢
      omega

/- ### The printed output is the concatenation in rank order -/

theorem getD_append_right_self (l t : List Nat) (j : Nat) :
    (l ++ t).getD (l.length + j) 0 = t.getD j 0 := by
  rw [List.getD_eq_getElem?_getD, List.getD_eq_getElem?_getD, List.getElem?_append,
    if_neg (by omega), show l.length + j - l.length = j from by omega]

theorem map_getD_range (l : List Nat) :
    (List.range l.length).map (fun j => l.getD j 0) = l := by
  induction l with
  | nil => rfl
  | cons a t ih =>
    rw [List.length_cons, List.range_succ_eq_map, List.map_cons, List.map_map,
      List.getD_cons_zero,
      show ((fun j => (a :: t).getD j 0) ∘ Nat.succ) = (fun j => t.getD j 0) from
        funext (fun j => List.getD_cons_succ), ih]

theorem print_index_flatten :
    ∀ (ws : List (List Nat)) (front : List Nat),
      print_index (front ++ ws.flatten) (ws.map List.length) front.length = ws.flatten := by
  intro ws
  induction ws with
  | nil => intro front; rfl
  | cons w rest ih =>
    intro front
    rw [List.map_cons, List.flatten_cons, print_index]
    congr 1
    · have h1 : ∀ j ∈ List.range w.length,
          (front ++ (w ++ rest.flatten)).getD (front.length + j) 0
            = (fun j => w.getD j 0) j := by
        intro j hj
        have hj' : j < w.length := List.mem_range.mp hj
        rw [getD_append_right_self]
        exact List.getD_append _ _ _ _ hj'
      rw [List.map_congr_left h1, map_getD_range]
    · have h2 := ih (front ++ w)
      rw [List.append_assoc] at h2
      rw [List.length_append] at h2
      exact h2

theorem output_eq_globalResult (file_buffer pattern : List Byte) (p : Nat) :
    output file_buffer pattern p = GlobalResult file_buffer pattern p := by
  have h := print_index_flatten ((List.range p).map (worker_found file_buffer pattern p)) []
  simp only [List.nil_append, List.length_nil, List.map_map] at h
  unfold output recv_counts GlobalResult
  exact h

/- ### Claim theorems -/

/-- Claim C1, counterexample: with corpus "aaa" (whose file on disk is
"aaa" plus a final byte, here also an a), pattern "aaa" (so 1 <= |P| <= |C|),
the kernel's result with 2 workers differs from its result with 1 worker:
worker 0's overlap-extended segment reaches into the file's final byte and it
reports offset 1, which the single-worker run does not report. -/
theorem C1_counterexample :
    (1 <= ([97, 97, 97] : List Byte).length
      ∧ ([97, 97, 97] : List Byte).length <= ([97, 97, 97] : List Byte).length)
    ∧ GlobalResult ([97, 97, 97] ++ [97]) [97, 97, 97] 2
        ≠ GlobalResult ([97, 97, 97] ++ [97]) [97, 97, 97] 1 := by
  decide

/-- Claim C1 (amended): for every corpus `C` (stored as the file `C ++ [s]`),
pattern `P` with `1 <= |P| <= |C|`, and worker count `N > 1` that additionally
satisfies `|P| <= |C| / N + 1` (so no worker's overlap region extends past the
corpus), the gathered sequence of absolute match offsets equals, element for
element and in order, the sequence produced with worker count 1. -/
theorem C1_amended (C : List Byte) (s : Byte) (P : List Byte) (p : Nat)
    (hp : 1 < p) (hm : 1 <= P.length) (hmc : P.length <= C.length)
    (hover : P.length <= C.length / p + 1) :
    GlobalResult (C ++ [s]) P p = GlobalResult (C ++ [s]) P 1 := by
  rw [globalResult_eq_corpusMatches C s P p (by omega) hm hmc hover,
    globalResult_eq_corpusMatches C s P 1 (by omega) hm hmc (by omega)]

theorem C1_amended_witness :
    GlobalResult ([97, 97, 97, 97, 97] ++ [0]) [97, 97] 2
      = GlobalResult ([97, 97, 97, 97, 97] ++ [0]) [97, 97] 1 :=
  C1_amended [97, 97, 97, 97, 97] 0 [97, 97] 2 (by decide) (by decide) (by decide)
    (by decide)

/-- Claim C2: for every corpus `C` (stored as the file `C ++ [s]`), pattern
`P` with `1 <= |P| <= |C|`, every worker count `N >= 1`, and every position
`o` with `o + |P| <= |C|` at which the pattern truly occurs, `o` appears in
the gathered result exactly once — in particular a match spanning the seam
between two adjacent partitions is reported once, never zero or two times. -/
theorem C2_exact_once (C : List Byte) (s : Byte) (P : List Byte) (p o : Nat)
    (hp : 1 <= p) (hm : 1 <= P.length) (hmc : P.length <= C.length)
    (ho : o + P.length <= C.length) (hocc : (C.drop o).take P.length = P) :
    (GlobalResult (C ++ [s]) P p).count o = 1 :=
  globalResult_count C s P p o hp hm ho ((matchAt_iff_slice C P o ho).mpr hocc)

theorem C2_exact_once_witness :
    (GlobalResult ([97, 97, 97, 97, 97] ++ [0]) [97, 97] 2).count 2 = 1 :=
  C2_exact_once [97, 97, 97, 97, 97] 0 [97, 97] 2 2 (by decide) (by decide) (by decide)
    (by decide) (by decide)

/-- Claim C3, counterexample: with corpus "aaa" stored as the file "aaaa" and
pattern "aaa", the 2-worker result contains offset 1, but the corpus bytes
starting at offset 1 are not the pattern (the match read the file's final
byte, which is outside the corpus). -/
theorem C3_counterexample :
    1 ∈ GlobalResult ([97, 97, 97] ++ [97]) [97, 97, 97] 2
    ∧ ¬ ((([97, 97, 97] : List Byte).drop 1).take ([97, 97, 97] : List Byte).length
          = [97, 97, 97]) := by
  decide

/-- Claim C3 (amended): for every corpus `C` (stored as the file `C ++ [s]`),
pattern `P` with `1 <= |P| <= |C|`, and worker count `N >= 1` that additionally
satisfies `|P| <= |C| / N + 1` (so no worker's overlap region extends past the
corpus), every offset in the gathered result is a true occurrence of the
pattern in the corpus; and, with no extra hypothesis, every worker's local
match list is strictly ascending. -/
theorem C3_amended (C : List Byte) (s : Byte) (P : List Byte) (p : Nat)
    (hp : 1 <= p) (hm : 1 <= P.length) (hmc : P.length <= C.length)
    (hover : P.length <= C.length / p + 1) :
    (∀ o ∈ GlobalResult (C ++ [s]) P p,
        o + P.length <= C.length ∧ (C.drop o).take P.length = P)
    ∧ ∀ i, List.Pairwise (· < ·) (worker_found (C ++ [s]) P p i) := by
  constructor
  · intro o hoG
    rw [globalResult_eq_corpusMatches C s P p hp hm hmc hover] at hoG
    unfold corpusMatches at hoG
    have h2 := List.mem_filter.mp hoG
    have h3 : o < C.length + 1 - P.length := List.mem_range.mp h2.1
    have hob : o + P.length <= C.length := by omega
    exact ⟨hob, (matchAt_iff_slice C P o hob).mp h2.2⟩
  · intro i
    exact find_string_pairwise _ _ _ _ _

theorem C3_amended_witness :
    2 + ([97, 97] : List Byte).length <= ([97, 97, 97, 97, 97] : List Byte).length
    ∧ (([97, 97, 97, 97, 97] : List Byte).drop 2).take ([97, 97] : List Byte).length
        = [97, 97] :=
  (C3_amended [97, 97, 97, 97, 97] 0 [97, 97] 2 (by decide) (by decide) (by decide)
    (by decide)).1 2 (by decide)

/-- Claim C4: the size check in `main` signals the SizeError (aborting the
whole run) exactly when the pattern is longer than the corpus (the file minus
its final byte); for every pattern length at most the corpus length the check
passes and partitioning proceeds. -/
theorem C4_size_check (C : List Byte) (s : Byte) (P : List Byte) :
    size_error ((C ++ [s]).length : Int) P.length = true ↔ C.length < P.length := by
  simp only [size_error, decide_eq_true_eq, List.length_append, List.length_singleton]
  push_cast
  omega

/-- Claim C5: on the corpus "aaaaa" (stored as a 6-byte file whose final byte
`s` is arbitrary) with pattern "aa" and 2 workers, the gathered result — and
the sequence the coordinator prints — is exactly [0, 1, 2, 3]. -/
theorem C5_concrete : ∀ s : Byte,
    GlobalResult ([97, 97, 97, 97, 97] ++ [s]) [97, 97] 2 = [0, 1, 2, 3]
    ∧ output ([97, 97, 97, 97, 97] ++ [s]) [97, 97] 2 = [0, 1, 2, 3] := by
  intro s
  have h : GlobalResult ([97, 97, 97, 97, 97] ++ [s]) [97, 97] 2 = [0, 1, 2, 3] := by
    simp [GlobalResult, worker_found, find_string, matchAt, local_buffer, distribute_file,
      distF, displacment, List.range_succ]
  exact ⟨h, by rw [output_eq_globalResult, h]⟩

/-- Claim C6: for every corpus length `L`, pattern length `m >= 1` and worker
count `p >= 1`, the partitioner assigns `size[i] = L / p`, plus one extra byte
for each of the first `L mod p` workers, plus `m - 1` trailing overlap bytes
for every worker but the last; the offsets satisfy `offset[0] = 0` and
`offset[i] = offset[i-1] + size[i-1] - (m - 1)`; and the non-overlapping
territories (each worker's range with its overlap removed) tile `[0, L)`
exactly. -/
theorem C6_partition (L m p : Nat) (hm : 1 <= m) (hp : 1 <= p) :
    (∀ i, i < p → (distribute_file L m p).getD i 0
        = L / p + (if i < L % p then 1 else 0) + (if i < p - 1 then m - 1 else 0))
    ∧ displacment (distribute_file L m p) m 0 = 0
    ∧ (∀ i, 1 <= i → i < p →
        displacment (distribute_file L m p) m i
          = displacment (distribute_file L m p) m (i - 1)
            + (distribute_file L m p).getD (i - 1) 0 - (m - 1))
    ∧ ((List.range p).map (fun i =>
          List.range' (displacment (distribute_file L m p) m i)
            ((distribute_file L m p).getD i 0 - (if i < p - 1 then m - 1 else 0)))).flatten
        = List.range L := by
  refine ⟨?_, rfl, ?_, ?_⟩
  · intro i hi
    rw [distribute_file_getD L m p i hi]
    rfl
  · intro i h1 hi
    obtain ⟨k, rfl⟩ : ∃ k, i = k + 1 := ⟨i - 1, by omega⟩
    rw [show k + 1 - 1 = k from by omega]
    rfl
  · have hmap : (List.range p).map (fun i =>
          List.range' (displacment (distribute_file L m p) m i)
            ((distribute_file L m p).getD i 0 - (if i < p - 1 then m - 1 else 0)))
        = (List.range p).map (fun i =>
          List.range' (displacment (distribute_file L m p) m i)
            (distF L m p i - (if i < p - 1 then m - 1 else 0))) := by
      refine List.map_congr_left (fun i hi => ?_)
      rw [distribute_file_getD L m p i (List.mem_range.mp hi)]
    have hstep : ∀ i, i + 1 < p →
        displacment (distribute_file L m p) m (i + 1)
          = displacment (distribute_file L m p) m i
            + (distF L m p i - (if i < p - 1 then m - 1 else 0)) := by
      intro i hi
      have h1 : i < p - 1 := by omega
      rw [if_pos h1]
      have hs := displacment_succ L m p i hm hi
      have hge : m - 1 <= distF L m p i := by
        unfold distF
        rw [if_pos h1]
        generalize L / p = n
        generalize L % p = r
        split_ifs <;> omega
      omega
    rw [hmap, flatten_map_range' _ _ p (by omega) rfl hstep,
      if_neg (Nat.lt_irrefl (p - 1))]
    have hlast := displacment_last L m p (by omega)
    rw [show displacment (distribute_file L m p) m (p - 1)
          + (distF L m p (p - 1) - 0) = L from by omega]
    exact (List.range_eq_range' L).symm

theorem C6_partition_witness :
    ((List.range 2).map (fun i =>
        List.range' (displacment (distribute_file 5 2 2) 2 i)
          ((distribute_file 5 2 2).getD i 0 - (if i < 2 - 1 then 2 - 1 else 0)))).flatten
      = List.range 5 :=
  (C6_partition 5 2 2 (by decide) (by decide)).2.2.2

/-- Claim C7: every rank issues the same sequence of collective operations in
the same relative order — partition-table broadcast (two arrays), pattern
broadcast (length, then bytes), corpus scatter, barrier, count gather, data
gather — and, broadcasts replicating the root's values, every rank holds an
identical copy of the partition table and of the pattern before the scatter. -/
theorem C7_collectives :
    (∀ i j, main_collectives i = main_collectives j)
    ∧ main_collectives 0
        = [Collective.bcast_distribute, Collective.bcast_displs,
           Collective.bcast_pattern_size, Collective.bcast_pattern,
           Collective.scatter_corpus, Collective.barrier,
           Collective.gather_counts, Collective.gather_data]
    ∧ (∀ (file_buffer pattern : List Byte) (p i j : Nat),
        worker_distribute_table file_buffer pattern p i
            = worker_distribute_table file_buffer pattern p j
          ∧ worker_pattern pattern i = worker_pattern pattern j) :=
  ⟨fun _ _ => rfl, rfl, fun _ _ _ _ _ => ⟨rfl, rfl⟩⟩

/-- Claim C8 (code bug witness): on the 3-byte file "aaa" (corpus "aa") with
pattern "a" and a single worker, `find_string` records 2 matches, but the
`found` array in `main` is declared with capacity
`distribute[id] - pattern_size = 1` entries — the last write is out of
bounds, so the number of matches can exceed the declared capacity. -/
theorem C8_capacity :
    (worker_found [97, 97, 97] [97] 1 0).length = 2
    ∧ ¬ ((worker_found [97, 97, 97] [97] 1 0).length
        <= (distribute_file (([97, 97, 97] : List Byte).length - 1)
              ([97] : List Byte).length 1).getD 0 0
            - ([97] : List Byte).length) := by
  decide

/-- Claim C9, counterexample: for a file of size 4 (corpus length 3), pattern
length 3 and 2 workers, rank 0 receives `displs[0] + distribute[0] = 4` bytes,
which exceeds `file_size - 1 = 3`: the scatter does reach the file's final
byte. -/
theorem C9_counterexample :
    ¬ (displacment (distribute_file (4 - 1) 3 2) 3 0
        + (distribute_file (4 - 1) 3 2).getD 0 0 <= 4 - 1) := by
  decide

/-- Claim C9 (amended): the displacements are non-decreasing in the rank, the
last rank's range ends exactly at `file_size - 1` (the file's final byte is
not in the last rank's segment), and — provided additionally
`pattern_size <= (file_size - 1) / p + 1`, so that the overlap stays inside
the partitioned region — every rank's range ends at or before
`file_size - 1`, keeping the scatter inside the corpus and leaving the final
byte unscattered. -/
theorem C9_amended (file_size m p : Nat) (hm : 1 <= m) (hp : 1 <= p) :
    (∀ i j, i <= j → j < p →
        displacment (distribute_file (file_size - 1) m p) m i
          <= displacment (distribute_file (file_size - 1) m p) m j)
    ∧ displacment (distribute_file (file_size - 1) m p) m (p - 1)
        + (distribute_file (file_size - 1) m p).getD (p - 1) 0 = file_size - 1
    ∧ (m <= (file_size - 1) / p + 1 →
        ∀ i, i < p →
          displacment (distribute_file (file_size - 1) m p) m i
            + (distribute_file (file_size - 1) m p).getD i 0 <= file_size - 1) := by
  refine ⟨?_, ?_, ?_⟩
  · intro i j hij hj
    exact displacment_mono (file_size - 1) m p hij hj
  · rw [distribute_file_getD _ _ _ _ (by omega)]
    exact displacment_last (file_size - 1) m p (by omega)
  · intro hover i hi
    rw [distribute_file_getD _ _ _ _ hi]
    have hlast := displacment_last (file_size - 1) m p (by omega)
    rcases Nat.lt_or_ge i (p - 1) with hlt | hge
    · have hs := displacment_succ (file_size - 1) m p i hm (by omega)
      have hmono := displacment_mono (file_size - 1) m p
        (show i + 1 <= p - 1 by omega) (show p - 1 < p by omega)
      have hge1 : (file_size - 1) / p <= distF (file_size - 1) m p (p - 1) := by
        unfold distF
        split_ifs <;> omega
      have hge2 : m - 1 <= distF (file_size - 1) m p i := by
        unfold distF
        split_ifs <;> omega
      generalize hn : (file_size - 1) / p = n at hover hge1
      omega
    · have hie : i = p - 1 := by omega
      rw [hie]
      omega

theorem C9_amended_witness :
    displacment (distribute_file (5 - 1) 2 2) 2 (2 - 1)
      + (distribute_file (5 - 1) 2 2).getD (2 - 1) 0 = 5 - 1 :=
  (C9_amended 5 2 2 (by decide) (by decide)).2.1

/-- Claim C10: whenever a segment's size is strictly smaller than the pattern
size, `find_string`'s scan loop body never runs: the list of candidate
positions is empty, so no byte comparison happens, no match is recorded, and
the count stays zero. -/
theorem C10_small_segment (segment P : List Byte) (file_size pattern_size displacement : Nat)
    (h : file_size < pattern_size) :
    find_string segment P file_size pattern_size displacement = []
      ∧ List.range (file_size + 1 - pattern_size) = [] := by
  have h0 : file_size + 1 - pattern_size = 0 := by omega
  unfold find_string
  rw [h0]
  exact ⟨rfl, rfl⟩

theorem C10_small_segment_witness :
    find_string [97] [97, 97] 1 2 0 = [] ∧ List.range (1 + 1 - 2) = [] :=
  C10_small_segment [97] [97, 97] 1 2 0 (by decide)
